import Mathlib

/-!
Verification development for the repathing engine ("bumpath" algorithm) of the
Flint asset extractor (`src-tauri/src/core/repath/refather.rs`).

Modelling conventions:
* Rust `String`/`&str` values are modelled as `List Char`.  Rust's
  `str::to_lowercase` is modelled at the character level by the ASCII case map
  (the recognized path tokens `assets/`, `data/`, `.bin`, `skin` are all ASCII,
  and byte indexing in the source is modelled as character indexing).
* The filesystem is modelled explicitly: a directory listing is a list of
  relative paths (in walk order), and effectful operations (`copy`,
  `remove_file`, `create_dir_all`) are supplied as `Except`-valued oracles.
* The external BIN codec (`read_bin` / `write_bin`, which live outside the
  repathing module) is supplied as a pair of `Except`-valued function
  parameters; the property-tree value model `PropertyValueEnum` is embedded as
  the inductive `PValue` below.
-/

/-- ASCII model of Rust's per-character lowercase map. -/
def charToLower (c : Char) : Char :=
  if 'A' ≤ c ∧ c ≤ 'Z' then Char.ofNat (c.toNat + 32) else c

/-- Model of `str::to_lowercase`. -/
def toLowerStr (s : List Char) : List Char := s.map charToLower

/-- Model of `str::starts_with`. -/
def startsWithStr (s pat : List Char) : Bool := pat.isPrefixOf s

/-- Model of `str::replace('\\', "/")`. -/
def replaceBackslash (s : List Char) : List Char :=
  s.map (fun c => if c = '\\' then '/' else c)

/-- `is_asset_path` from `refather.rs`: the lowercase form starts with
`assets/` or `data/`. -/
def is_asset_path (s : List Char) : Bool :=
  startsWithStr (toLowerStr s) "assets/".toList ||
    startsWithStr (toLowerStr s) "data/".toList

/-- `normalize_path` from `refather.rs`: lowercase, backslashes to forward
slashes. -/
def normalize_path (s : List Char) : List Char :=
  replaceBackslash (toLowerStr s)

/-- `apply_prefix_to_path` from `refather.rs`.  `&path[6..]` and `&path[4..]`
are the tails after the byte offsets 6 and 4; on the character-level model they
are `path.drop 6` and `path.drop 4`. -/
def apply_prefix_to_path (path pfx : List Char) : List Char :=
  if startsWithStr (toLowerStr path) "assets/".toList then
    "ASSETS/".toList ++ pfx ++ path.drop 6
  else if startsWithStr (toLowerStr path) "data/".toList then
    "ASSETS/".toList ++ pfx ++ path.drop 4
  else
    "ASSETS/".toList ++ pfx ++ "/".toList ++ path

/-- The claim's "recognized root token removed": drop `assets/` (7 chars) or
`data/` (5 chars), matched case-insensitively, from the front. -/
def stripRootToken (p : List Char) : List Char :=
  if startsWithStr (toLowerStr p) "assets/".toList then p.drop 7
  else if startsWithStr (toLowerStr p) "data/".toList then p.drop 5
  else p

/-- Model of `str::contains(pat)`: `pat` occurs as a contiguous substring. -/
def containsSub (s pat : List Char) : Bool :=
  pat.isPrefixOf s ||
    match s with
    | [] => false
    | _ :: t => containsSub t pat

/-- Embedding of `ltk_meta::PropertyValueEnum`, the polymorphic value tree of a
BIN document.  `Struct`/`Embedded` hold keyed property maps in the source; the
traversals only ever iterate `properties.values()`, so the property names are
elided and the values kept in iteration order.  Map keys are wrapped in
`PropertyValueUnsafeEq` in the source; the wrapper is elided.  All the
primitive variants never visited by the traversals are collapsed into
`other`. -/
inductive PValue : Type where
  | string : List Char → PValue
  | container : List PValue → PValue
  | unorderedContainer : List PValue → PValue
  | struct : List PValue → PValue
  | embedded : List PValue → PValue
  | optional : Option PValue → PValue
  | map : List (PValue × PValue) → PValue
  | other : PValue

/- `collect_paths_from_value` from `refather.rs` (with its list helpers as the
`collectPathsList`/`collectPathsEntries` companions): push `normalize_path s`
for every qualifying string leaf; recurse into container and
unordered-container items, struct and embedded properties, present optionals,
and for each map entry first the key and then the value. -/
mutual
def collect_paths_from_value : PValue → List (List Char)
  | .string s => if is_asset_path s then [normalize_path s] else []
  | .container items => collectPathsList items
  | .unorderedContainer items => collectPathsList items
  | .struct props => collectPathsList props
  | .embedded props => collectPathsList props
  | .optional none => []
  | .optional (some inner) => collect_paths_from_value inner
  | .map entries => collectPathsEntries entries
  | .other => []
def collectPathsList : List PValue → List (List Char)
  | [] => []
  | v :: vs => collect_paths_from_value v ++ collectPathsList vs
def collectPathsEntries : List (PValue × PValue) → List (List Char)
  | [] => []
  | (k, v) :: es =>
      collect_paths_from_value k ++ collect_paths_from_value v ++
        collectPathsEntries es
end

/- The harvest traversal as the specification describes it, parametrized by
whether map keys are visited: strings at leaves, container and
unordered-container elements, struct and embedded-struct properties, present
optionals, and map values — map keys only when `visitKeys` is `true`. -/
mutual
def harvestSpec (visitKeys : Bool) : PValue → List (List Char)
  | .string s => if is_asset_path s then [normalize_path s] else []
  | .container items => harvestSpecList visitKeys items
  | .unorderedContainer items => harvestSpecList visitKeys items
  | .struct props => harvestSpecList visitKeys props
  | .embedded props => harvestSpecList visitKeys props
  | .optional none => []
  | .optional (some inner) => harvestSpec visitKeys inner
  | .map entries => harvestSpecEntries visitKeys entries
  | .other => []
def harvestSpecList (visitKeys : Bool) : List PValue → List (List Char)
  | [] => []
  | v :: vs => harvestSpec visitKeys v ++ harvestSpecList visitKeys vs
def harvestSpecEntries (visitKeys : Bool) :
    List (PValue × PValue) → List (List Char)
  | [] => []
  | (k, v) :: es =>
      (if visitKeys then harvestSpec visitKeys k else []) ++
        harvestSpec visitKeys v ++ harvestSpecEntries visitKeys es
end

/- `repath_value` from `refather.rs` (with its list helpers): replace a
qualifying string leaf whose normalized form is in the existing set by its
namespaced form and count it; recurse everywhere except into map keys
(wrapped in `PropertyValueUnsafeEq`, hence immutable). -/
mutual
def repath_value (ex : List (List Char)) (pfx : List Char) :
    PValue → PValue × Nat
  | .string s =>
      if is_asset_path s then
        if normalize_path s ∈ ex then
          (.string (apply_prefix_to_path s pfx), 1)
        else (.string s, 0)
      else (.string s, 0)
  | .container items =>
      let r := repathList ex pfx items
      (.container r.1, r.2)
  | .unorderedContainer items =>
      let r := repathList ex pfx items
      (.unorderedContainer r.1, r.2)
  | .struct props =>
      let r := repathList ex pfx props
      (.struct r.1, r.2)
  | .embedded props =>
      let r := repathList ex pfx props
      (.embedded r.1, r.2)
  | .optional none => (.optional none, 0)
  | .optional (some inner) =>
      let r := repath_value ex pfx inner
      (.optional (some r.1), r.2)
  | .map entries =>
      let r := repathEntries ex pfx entries
      (.map r.1, r.2)
  | .other => (.other, 0)
def repathList (ex : List (List Char)) (pfx : List Char) :
    List PValue → List PValue × Nat
  | [] => ([], 0)
  | v :: vs =>
      let r := repath_value ex pfx v
      let rs := repathList ex pfx vs
      (r.1 :: rs.1, r.2 + rs.2)
def repathEntries (ex : List (List Char)) (pfx : List Char) :
    List (PValue × PValue) → List (PValue × PValue) × Nat
  | [] => ([], 0)
  | (k, v) :: es =>
      let r := repath_value ex pfx v
      let rs := repathEntries ex pfx es
      ((k, r.1) :: rs.1, r.2 + rs.2)
end

/- All string leaves physically present in a value tree, map keys included. -/
mutual
def leafStrings : PValue → List (List Char)
  | .string s => [s]
  | .container items => leafStringsList items
  | .unorderedContainer items => leafStringsList items
  | .struct props => leafStringsList props
  | .embedded props => leafStringsList props
  | .optional none => []
  | .optional (some inner) => leafStrings inner
  | .map entries => leafStringsEntries entries
  | .other => []
def leafStringsList : List PValue → List (List Char)
  | [] => []
  | v :: vs => leafStrings v ++ leafStringsList vs
def leafStringsEntries : List (PValue × PValue) → List (List Char)
  | [] => []
  | (k, v) :: es => leafStrings k ++ leafStrings v ++ leafStringsEntries es
end

lemma charToLower_eq_slash {c : Char} (h : charToLower c = '/') : c = '/' := by
  unfold charToLower at h
  split at h
  · rename_i hr
    exfalso
    have hv : (Char.ofNat (c.toNat + 32)).toNat = c.toNat + 32 := by
      have hlt : c.toNat + 32 < 0xd800 := by
        have : c ≤ 'Z' := hr.2
        have : c.toNat ≤ 90 := by
          simpa [Char.le_def, Char.toNat] using this
        omega
      have hvalid : Nat.isValidChar (c.toNat + 32) := Or.inl hlt
      unfold Char.ofNat
      rw [dif_pos hvalid]
      simp [Char.ofNatAux, Char.toNat, UInt32.toNat, BitVec.toNat_ofNatLt]
    have h47 : (Char.ofNat (c.toNat + 32)).toNat = 47 := by
      rw [h]; rfl
    have h65 : 65 ≤ c.toNat := by
      have : 'A' ≤ c := hr.1
      simpa [Char.le_def, Char.toNat] using this
    omega
  · exact h

lemma startsWith_toLower_cons {s : List Char} {p : List Char} {c : Char}
    (h : startsWithStr (toLowerStr s) (c :: p) = true) :
    ∃ d t, s = d :: t ∧ charToLower d = c ∧
      startsWithStr (toLowerStr t) p = true := by
  cases s with
  | nil => simp [startsWithStr, toLowerStr, List.isPrefixOf] at h
  | cons d t =>
    refine ⟨d, t, rfl, ?_, ?_⟩
    · simp only [startsWithStr, toLowerStr, List.map_cons, List.isPrefixOf,
        Bool.and_eq_true, beq_iff_eq] at h
      exact h.1.symm
    · simp only [startsWithStr, toLowerStr, List.map_cons, List.isPrefixOf,
        Bool.and_eq_true] at h
      exact h.2

/-- If the lowercase of `p` starts with `assets/`, then `p` has at least seven
characters and its seventh character is literally `/`. -/
lemma assets_shape {p : List Char}
    (h : startsWithStr (toLowerStr p) "assets/".toList = true) :
    p.drop 6 = '/' :: p.drop 7 := by
  obtain ⟨c1, t1, rfl, -, h⟩ := startsWith_toLower_cons h
  obtain ⟨c2, t2, rfl, -, h⟩ := startsWith_toLower_cons h
  obtain ⟨c3, t3, rfl, -, h⟩ := startsWith_toLower_cons h
  obtain ⟨c4, t4, rfl, -, h⟩ := startsWith_toLower_cons h
  obtain ⟨c5, t5, rfl, -, h⟩ := startsWith_toLower_cons h
  obtain ⟨c6, t6, rfl, -, h⟩ := startsWith_toLower_cons h
  obtain ⟨c7, t7, rfl, hc7, -⟩ := startsWith_toLower_cons h
  have : c7 = '/' := charToLower_eq_slash hc7
  simp [this]

/-- If the lowercase of `p` starts with `data/`, then `p`'s fifth character is
literally `/`. -/
lemma data_shape {p : List Char}
    (h : startsWithStr (toLowerStr p) "data/".toList = true) :
    p.drop 4 = '/' :: p.drop 5 := by
  obtain ⟨c1, t1, rfl, -, h⟩ := startsWith_toLower_cons h
  obtain ⟨c2, t2, rfl, -, h⟩ := startsWith_toLower_cons h
  obtain ⟨c3, t3, rfl, -, h⟩ := startsWith_toLower_cons h
  obtain ⟨c4, t4, rfl, -, h⟩ := startsWith_toLower_cons h
  obtain ⟨c5, t5, rfl, hc5, -⟩ := startsWith_toLower_cons h
  have : c5 = '/' := charToLower_eq_slash hc5
  simp [this]

/-- C3 claim: for an asset path `p` and non-empty `P`, the rewritten string is
the literal `ASSETS/` ++ `P` ++ `/` followed by exactly `p` with its root token
removed. -/
theorem C3_apply_roundtrip (p P : List Char) (hp : is_asset_path p = true)
    (hP : P ≠ []) :
    apply_prefix_to_path p P =
      "ASSETS/".toList ++ P ++ "/".toList ++ stripRootToken p := by
  unfold is_asset_path at hp
  rcases Bool.or_eq_true _ _ |>.mp hp with ha | hd
  · unfold apply_prefix_to_path stripRootToken
    rw [if_pos ha, if_pos ha, assets_shape ha]
    simp
  · have hna : startsWithStr (toLowerStr p) "assets/".toList = false := by
      cases hc : startsWithStr (toLowerStr p) "assets/".toList
      · rfl
      · exfalso
        obtain ⟨c, t, rfl, hca, -⟩ := startsWith_toLower_cons hc
        obtain ⟨c', t', he, hcd, -⟩ := startsWith_toLower_cons hd
        cases he
        rw [hca] at hcd
        exact absurd hcd (by decide)
    unfold apply_prefix_to_path stripRootToken
    rw [if_neg (by simpa using hna), if_pos hd, if_neg (by simpa using hna),
      if_pos hd, data_shape hd]
    simp

/-- C3 witness. -/
theorem C3_apply_roundtrip_witness :
    apply_prefix_to_path ("Assets/x.dds".toList) "A/B".toList =
      "ASSETS/".toList ++ "A/B".toList ++ "/".toList ++
        stripRootToken ("Assets/x.dds".toList) :=
  C3_apply_roundtrip ("Assets/x.dds".toList) "A/B".toList (by decide) (by decide)

lemma startsWith_prepend (x y : List Char) : startsWithStr (x ++ y) x = true :=
  List.isPrefixOf_iff_prefix.mpr ⟨y, rfl⟩

lemma apply_starts_assets (p P : List Char) :
    startsWithStr (toLowerStr (apply_prefix_to_path p P))
      "assets/".toList = true := by
  unfold apply_prefix_to_path
  split
  · simp only [toLowerStr, List.map_append, List.append_assoc]
    rw [show List.map charToLower ("ASSETS/".toList) = "assets/".toList from
      by decide]
    exact startsWith_prepend _ _
  split
  · simp only [toLowerStr, List.map_append, List.append_assoc]
    rw [show List.map charToLower ("ASSETS/".toList) = "assets/".toList from
      by decide]
    exact startsWith_prepend _ _
  · simp only [toLowerStr, List.map_append, List.append_assoc]
    rw [show List.map charToLower ("ASSETS/".toList) = "assets/".toList from
      by decide]
    exact startsWith_prepend _ _

lemma apply_length_of_assets (q P : List Char)
    (h : startsWithStr (toLowerStr q) "assets/".toList = true) :
    (apply_prefix_to_path q P).length = q.length + P.length + 1 := by
  have h7 : 7 ≤ q.length := by
    have := (List.isPrefixOf_iff_prefix.mp h).length_le
    simpa [toLowerStr] using this
  unfold apply_prefix_to_path
  rw [if_pos h]
  simp only [List.length_append, List.length_drop]
  have h77 : "ASSETS/".toList.length = 7 := by decide
  omega

/-- C4 claim: the output of `apply_prefix_to_path` itself qualifies as an
asset path again, so a second application produces a longer, different,
double-prefixed string: the rewrite is not idempotent. -/
theorem C4_not_idempotent (p P : List Char) (hp : is_asset_path p = true) :
    is_asset_path (apply_prefix_to_path p P) = true ∧
      apply_prefix_to_path (apply_prefix_to_path p P) P ≠
        apply_prefix_to_path p P := by
  have h1 := apply_starts_assets p P
  refine ⟨by unfold is_asset_path; rw [h1]; simp, fun heq => ?_⟩
  have hl := congrArg List.length heq
  rw [apply_length_of_assets _ P h1] at hl
  omega

/-- C4 witness. -/
theorem C4_not_idempotent_witness :
    is_asset_path (apply_prefix_to_path ("assets/x.dds".toList) "A/B".toList)
        = true ∧
      apply_prefix_to_path
          (apply_prefix_to_path ("assets/x.dds".toList) "A/B".toList)
          "A/B".toList ≠
        apply_prefix_to_path ("assets/x.dds".toList) "A/B".toList :=
  C4_not_idempotent ("assets/x.dds".toList) "A/B".toList (by decide)

lemma is_asset_path_normalize {s : List Char} (h : is_asset_path s = true) :
    is_asset_path (normalize_path s) = true := by
  unfold is_asset_path at h ⊢
  rcases Bool.or_eq_true _ _ |>.mp h with ha | hd
  · obtain ⟨rest, hrest⟩ := List.isPrefixOf_iff_prefix.mp ha
    have hn : normalize_path s =
        "assets/".toList ++ replaceBackslash rest := by
      unfold normalize_path
      rw [show toLowerStr s = "assets/".toList ++ rest from hrest.symm]
      unfold replaceBackslash
      rw [List.map_append]
      rw [show List.map (fun c => if c = '\\' then '/' else c)
        "assets/".toList = "assets/".toList from by decide]
    rw [hn]
    have : toLowerStr ("assets/".toList ++ replaceBackslash rest) =
        "assets/".toList ++ toLowerStr (replaceBackslash rest) := by
      unfold toLowerStr
      rw [List.map_append]
      rw [show List.map charToLower ("assets/".toList) = "assets/".toList from
        by decide]
    rw [this, startsWith_prepend]
    simp
  · obtain ⟨rest, hrest⟩ := List.isPrefixOf_iff_prefix.mp hd
    have hn : normalize_path s =
        "data/".toList ++ replaceBackslash rest := by
      unfold normalize_path
      rw [show toLowerStr s = "data/".toList ++ rest from hrest.symm]
      unfold replaceBackslash
      rw [List.map_append]
      rw [show List.map (fun c => if c = '\\' then '/' else c)
        "data/".toList = "data/".toList from by decide]
    rw [hn]
    have : toLowerStr ("data/".toList ++ replaceBackslash rest) =
        "data/".toList ++ toLowerStr (replaceBackslash rest) := by
      unfold toLowerStr
      rw [List.map_append]
      rw [show List.map charToLower ("data/".toList) = "data/".toList from
        by decide]
    rw [this, startsWith_prepend]
    simp

mutual
theorem collected_is_asset :
    ∀ v : PValue, ∀ p, p ∈ collect_paths_from_value v →
      is_asset_path p = true
  | .string s, p, hp => by
      by_cases h : is_asset_path s = true
      · simp only [collect_paths_from_value, h, if_true,
          List.mem_singleton] at hp
        subst hp
        exact is_asset_path_normalize h
      · simp [collect_paths_from_value, h] at hp
  | .container items, p, hp =>
      collectedList_is_asset items p
        (by simpa [collect_paths_from_value] using hp)
  | .unorderedContainer items, p, hp =>
      collectedList_is_asset items p
        (by simpa [collect_paths_from_value] using hp)
  | .struct props, p, hp =>
      collectedList_is_asset props p
        (by simpa [collect_paths_from_value] using hp)
  | .embedded props, p, hp =>
      collectedList_is_asset props p
        (by simpa [collect_paths_from_value] using hp)
  | .optional none, p, hp => by
      simp [collect_paths_from_value] at hp
  | .optional (some inner), p, hp =>
      collected_is_asset inner p
        (by simpa [collect_paths_from_value] using hp)
  | .map entries, p, hp =>
      collectedEntries_is_asset entries p
        (by simpa [collect_paths_from_value] using hp)
  | .other, p, hp => by
      simp [collect_paths_from_value] at hp
theorem collectedList_is_asset :
    ∀ l : List PValue, ∀ p, p ∈ collectPathsList l → is_asset_path p = true
  | [], p, hp => by simp [collectPathsList] at hp
  | v :: vs, p, hp => by
      rcases List.mem_append.mp (by simpa [collectPathsList] using hp)
        with h | h
      · exact collected_is_asset v p h
      · exact collectedList_is_asset vs p h
theorem collectedEntries_is_asset :
    ∀ l : List (PValue × PValue), ∀ p, p ∈ collectPathsEntries l →
      is_asset_path p = true
  | [], p, hp => by simp [collectPathsEntries] at hp
  | (k, v) :: es, p, hp => by
      have hp' : p ∈ collect_paths_from_value k ∨
          p ∈ collect_paths_from_value v ∨ p ∈ collectPathsEntries es := by
        simpa [collectPathsEntries, List.append_assoc] using hp
      rcases hp' with h | h | h
      · exact collected_is_asset k p h
      · exact collected_is_asset v p h
      · exact collectedEntries_is_asset es p h
end

/-- C8 claim: `is_asset_path s` holds exactly when the lowercase form of `s`
begins with the literal `assets/` or `data/`, and every string the harvester
collects satisfies `is_asset_path`. -/
theorem C8_is_asset_path_characterization :
    (∀ s : List Char, is_asset_path s = true ↔
      ((∃ rest, toLowerStr s = "assets/".toList ++ rest) ∨
        (∃ rest, toLowerStr s = "data/".toList ++ rest))) ∧
    (∀ v : PValue, ∀ p, p ∈ collect_paths_from_value v →
      is_asset_path p = true) := by
  constructor
  · intro s
    unfold is_asset_path startsWithStr
    rw [Bool.or_eq_true, List.isPrefixOf_iff_prefix, List.isPrefixOf_iff_prefix]
    constructor
    · rintro (⟨t, ht⟩ | ⟨t, ht⟩)
      · exact Or.inl ⟨t, ht.symm⟩
      · exact Or.inr ⟨t, ht.symm⟩
    · rintro (⟨t, ht⟩ | ⟨t, ht⟩)
      · exact Or.inl ⟨t, ht.symm⟩
      · exact Or.inr ⟨t, ht.symm⟩
  · exact collected_is_asset

/-- C8 witness. -/
theorem C8_is_asset_path_characterization_witness :
    is_asset_path ("Assets/a.dds".toList) = true ∧
      is_asset_path ("data/b.bin".toList) = true ∧
      is_asset_path ("assets/k.dds".toList) = true := by
  refine ⟨?_, ?_, ?_⟩
  · exact (C8_is_asset_path_characterization.1 ("Assets/a.dds".toList)).mpr
      (Or.inl ⟨"a.dds".toList, by decide⟩)
  · exact (C8_is_asset_path_characterization.1 ("data/b.bin".toList)).mpr
      (Or.inr ⟨"b.bin".toList, by decide⟩)
  · exact C8_is_asset_path_characterization.2
      (.string ("assets/k.dds".toList)) ("assets/k.dds".toList) (by decide)

mutual
theorem collect_eq_keysVisited :
    ∀ v : PValue, collect_paths_from_value v = harvestSpec true v
  | .string s => by simp [collect_paths_from_value, harvestSpec]
  | .container items => by
      simp [collect_paths_from_value, harvestSpec,
        collectList_eq_keysVisited items]
  | .unorderedContainer items => by
      simp [collect_paths_from_value, harvestSpec,
        collectList_eq_keysVisited items]
  | .struct props => by
      simp [collect_paths_from_value, harvestSpec,
        collectList_eq_keysVisited props]
  | .embedded props => by
      simp [collect_paths_from_value, harvestSpec,
        collectList_eq_keysVisited props]
  | .optional none => by simp [collect_paths_from_value, harvestSpec]
  | .optional (some inner) => by
      simp [collect_paths_from_value, harvestSpec,
        collect_eq_keysVisited inner]
  | .map entries => by
      simp [collect_paths_from_value, harvestSpec,
        collectEntries_eq_keysVisited entries]
  | .other => by simp [collect_paths_from_value, harvestSpec]
theorem collectList_eq_keysVisited :
    ∀ l : List PValue, collectPathsList l = harvestSpecList true l
  | [] => by simp [collectPathsList, harvestSpecList]
  | v :: vs => by
      simp [collectPathsList, harvestSpecList, collect_eq_keysVisited v,
        collectList_eq_keysVisited vs]
theorem collectEntries_eq_keysVisited :
    ∀ l : List (PValue × PValue),
      collectPathsEntries l = harvestSpecEntries true l
  | [] => by simp [collectPathsEntries, harvestSpecEntries]
  | (k, v) :: es => by
      simp [collectPathsEntries, harvestSpecEntries,
        collect_eq_keysVisited k, collect_eq_keysVisited v,
        collectEntries_eq_keysVisited es]
end

/-- C1 counterexample: a document value whose only asset-shaped string sits in
a map key.  The harvester collects it, while the claim's traversal — which
never enters map keys — collects nothing. -/
theorem C1_counterexample :
    "assets/k.dds".toList ∈
        collect_paths_from_value
          (.map [(.string ("assets/k.dds".toList), .other)]) ∧
      "assets/k.dds".toList ∉
        harvestSpec false
          (.map [(.string ("assets/k.dds".toList), .other)]) := by
  decide

/-- C1 amended: the harvester's traversal recurses into every map entry's key
AND value; the harvested paths are exactly those of the traversal that visits
strings, container and unordered-container elements, struct and embedded-struct
properties, present optionals, and both components of every map entry. -/
theorem C1_harvest_visits_map_keys_and_values (v : PValue) :
    collect_paths_from_value v = harvestSpec true v :=
  collect_eq_keysVisited v

/-- Step 3 of `repath_project`: the harvested paths that exist under the
content root (existence modelled as membership in the directory listing). -/
def existingOf (fs : List (List Char)) (harvested : List (List Char)) :
    List (List Char) :=
  harvested.filter (fun p => fs.contains p)

/-- Step 3 of `repath_project`: the harvested paths pushed into
`missing_paths`. -/
def missingOf (fs : List (List Char)) (harvested : List (List Char)) :
    List (List Char) :=
  harvested.filter (fun p => !(fs.contains p))

mutual
theorem repathLeaf_origin :
    ∀ (ex : List (List Char)) (pfx : List Char) (v : PValue) (t : List Char),
      t ∈ leafStrings (repath_value ex pfx v).1 →
        t ∈ leafStrings v ∨
          ∃ s, s ∈ leafStrings v ∧ normalize_path s ∈ ex ∧
            t = apply_prefix_to_path s pfx
  | ex, pfx, .string s, t, ht => by
      by_cases ha : is_asset_path s = true
      · by_cases hm : normalize_path s ∈ ex
        · right
          refine ⟨s, by simp [leafStrings], hm, ?_⟩
          simpa [repath_value, ha, hm, leafStrings] using ht
        · left
          simpa [repath_value, ha, hm, leafStrings] using ht
      · left
        simpa [repath_value, ha, leafStrings] using ht
  | ex, pfx, .container items, t, ht => by
      have h := repathListLeaf_origin ex pfx items t
        (by simpa [repath_value, leafStrings] using ht)
      simpa [leafStrings] using h
  | ex, pfx, .unorderedContainer items, t, ht => by
      have h := repathListLeaf_origin ex pfx items t
        (by simpa [repath_value, leafStrings] using ht)
      simpa [leafStrings] using h
  | ex, pfx, .struct props, t, ht => by
      have h := repathListLeaf_origin ex pfx props t
        (by simpa [repath_value, leafStrings] using ht)
      simpa [leafStrings] using h
  | ex, pfx, .embedded props, t, ht => by
      have h := repathListLeaf_origin ex pfx props t
        (by simpa [repath_value, leafStrings] using ht)
      simpa [leafStrings] using h
  | ex, pfx, .optional none, t, ht => by
      simp [repath_value, leafStrings] at ht
  | ex, pfx, .optional (some inner), t, ht => by
      have h := repathLeaf_origin ex pfx inner t
        (by simpa [repath_value, leafStrings] using ht)
      simpa [leafStrings] using h
  | ex, pfx, .map entries, t, ht => by
      have h := repathEntriesLeaf_origin ex pfx entries t
        (by simpa [repath_value, leafStrings] using ht)
      simpa [leafStrings] using h
  | ex, pfx, .other, t, ht => by
      simp [repath_value, leafStrings] at ht
theorem repathListLeaf_origin :
    ∀ (ex : List (List Char)) (pfx : List Char) (l : List PValue)
      (t : List Char),
      t ∈ leafStringsList (repathList ex pfx l).1 →
        t ∈ leafStringsList l ∨
          ∃ s, s ∈ leafStringsList l ∧ normalize_path s ∈ ex ∧
            t = apply_prefix_to_path s pfx
  | ex, pfx, [], t, ht => by simp [repathList, leafStringsList] at ht
  | ex, pfx, v :: vs, t, ht => by
      have ht' : t ∈ leafStrings (repath_value ex pfx v).1 ∨
          t ∈ leafStringsList (repathList ex pfx vs).1 := by
        simpa [repathList, leafStringsList] using ht
      rcases ht' with h | h
      · rcases repathLeaf_origin ex pfx v t h with h2 | ⟨s, hs, hm, he⟩
        · exact Or.inl (by simp [leafStringsList, h2])
        · exact Or.inr ⟨s, by simp [leafStringsList, hs], hm, he⟩
      · rcases repathListLeaf_origin ex pfx vs t h with h2 | ⟨s, hs, hm, he⟩
        · exact Or.inl (by simp [leafStringsList, h2])
        · exact Or.inr ⟨s, by simp [leafStringsList, hs], hm, he⟩
theorem repathEntriesLeaf_origin :
    ∀ (ex : List (List Char)) (pfx : List Char)
      (l : List (PValue × PValue)) (t : List Char),
      t ∈ leafStringsEntries (repathEntries ex pfx l).1 →
        t ∈ leafStringsEntries l ∨
          ∃ s, s ∈ leafStringsEntries l ∧ normalize_path s ∈ ex ∧
            t = apply_prefix_to_path s pfx
  | ex, pfx, [], t, ht => by simp [repathEntries, leafStringsEntries] at ht
  | ex, pfx, (k, v) :: es, t, ht => by
      have ht' : t ∈ leafStrings k ∨ t ∈ leafStrings (repath_value ex pfx v).1 ∨
          t ∈ leafStringsEntries (repathEntries ex pfx es).1 := by
        simpa [repathEntries, leafStringsEntries, List.append_assoc,
          List.mem_append, or_assoc] using ht
      rcases ht' with h | h | h
      · exact Or.inl (by simp [leafStringsEntries, h])
      · rcases repathLeaf_origin ex pfx v t h with h2 | ⟨s, hs, hm, he⟩
        · exact Or.inl (by simp [leafStringsEntries, h2])
        · exact Or.inr ⟨s, by simp [leafStringsEntries, hs], hm, he⟩
      · rcases repathEntriesLeaf_origin ex pfx es t h with h2 | ⟨s, hs, hm, he⟩
        · exact Or.inl (by simp [leafStringsEntries, h2])
        · exact Or.inr ⟨s, by simp [leafStringsEntries, hs], hm, he⟩
end

/-- C5 counterexample: in a document holding both leaves `assets/foo` and
`data/foo`, with only `data/foo` on disk, `assets/foo` lands in `missing`, yet
rewriting the existing leaf `data/foo` produces exactly `ASSETS/P/Q/foo` —
the namespaced form of the missing path — because both root tokens collapse
to the same namespaced output. -/
theorem C5_counterexample :
    "assets/foo".toList ∈
        missingOf ["data/foo".toList]
          (collect_paths_from_value
            (.container [.string ("assets/foo".toList),
              .string ("data/foo".toList)])) ∧
      apply_prefix_to_path ("assets/foo".toList) "P/Q".toList ∈
        leafStrings
          (repath_value
            (existingOf ["data/foo".toList]
              (collect_paths_from_value
                (.container [.string ("assets/foo".toList),
                  .string ("data/foo".toList)])))
            "P/Q".toList
            (.container [.string ("assets/foo".toList),
              .string ("data/foo".toList)])).1 ∧
      apply_prefix_to_path ("assets/foo".toList) "P/Q".toList ∉
        leafStrings
          (.container [.string ("assets/foo".toList),
            .string ("data/foo".toList)]) := by
  decide

/-- C5 amended: `repath_value` replaces a string leaf only when its normalized
form is in the existing set — every string leaf of the rewritten tree that was
not already present in the input is the namespaced form of an input leaf whose
normalized form is in `existing` (the namespaced form of a missing path can
therefore still appear, but only as the image of an existing path whose suffix
coincides after removing the root token). -/
theorem C5_rewrite_only_existing (ex : List (List Char)) (pfx : List Char)
    (v : PValue) (t : List Char)
    (ht : t ∈ leafStrings (repath_value ex pfx v).1)
    (hnew : t ∉ leafStrings v) :
    ∃ s, s ∈ leafStrings v ∧ normalize_path s ∈ ex ∧
      t = apply_prefix_to_path s pfx := by
  rcases repathLeaf_origin ex pfx v t ht with h | h
  · exact absurd h hnew
  · exact h

/-- C5 witness. -/
theorem C5_rewrite_only_existing_witness :
    ∃ s, s ∈ leafStrings (.string ("data/foo".toList) : PValue) ∧
      normalize_path s ∈ ["data/foo".toList] ∧
      apply_prefix_to_path ("data/foo".toList) "P/Q".toList =
        apply_prefix_to_path s ("P/Q".toList) :=
  C5_rewrite_only_existing ["data/foo".toList] "P/Q".toList
    (.string ("data/foo".toList))
    (apply_prefix_to_path ("data/foo".toList) "P/Q".toList)
    (by decide) (by decide)

/-- Rust `format!("{:02}", n)`: decimal digits left-padded with `0` to width
two. -/
def pad2 (n : Nat) : List Char :=
  if n < 10 then '0' :: Nat.toDigits 10 n else Nat.toDigits 10 n

/-- The document-extension filter
`path.extension().map(|ext| ext.eq_ignore_ascii_case("bin"))`, modelled as a
case-insensitive `.bin` suffix of the path. -/
def hasBinExt (f : List Char) : Bool :=
  ".bin".toList.isSuffixOf (toLowerStr f)

/-- First candidate of `find_main_skin_bin`:
`data/characters/{champion}/skins/skin{id}.bin` (unpadded id). -/
def mainCandUnpadded (champion : List Char) (skinId : Nat) : List Char :=
  "data/characters/".toList ++ toLowerStr champion ++ "/skins/skin".toList ++
    Nat.toDigits 10 skinId ++ ".bin".toList

/-- Second candidate of `find_main_skin_bin`: the two-digit zero-padded id. -/
def mainCandPadded (champion : List Char) (skinId : Nat) : List Char :=
  "data/characters/".toList ++ toLowerStr champion ++ "/skins/skin".toList ++
    pad2 skinId ++ ".bin".toList

/-- The `patterns` vector of `find_main_skin_bin`. -/
def skinBinCandidates (champion : List Char) (skinId : Nat) :
    List (List Char) :=
  [mainCandUnpadded champion skinId, mainCandPadded champion skinId]

/-- `find_main_skin_bin` from `refather.rs`.  The filesystem is a walk-ordered
listing of relative file paths; direct existence of a candidate is membership
in the listing. -/
def find_main_skin_bin (fs : List (List Char)) (champion : List Char)
    (skinId : Nat) : Option (List Char) :=
  match (skinBinCandidates champion skinId).find?
      (fun pat => fs.contains pat) with
  | some pat => some pat
  | none =>
      fs.find? (fun f => hasBinExt f &&
        (skinBinCandidates champion skinId).contains (normalize_path f))

/-- Main-document discovery as the claim words it: check exactly the unpadded
and the two-digit padded candidate for direct existence; if neither exists,
scan all document-extension files, compare each file's normalized relative
path against those same two candidates, return the first exact match, else
`none`. -/
def findMainSkinBinSpec (fs : List (List Char)) (champion : List Char)
    (skinId : Nat) : Option (List Char) :=
  if fs.contains (mainCandUnpadded champion skinId) then
    some (mainCandUnpadded champion skinId)
  else if fs.contains (mainCandPadded champion skinId) then
    some (mainCandPadded champion skinId)
  else
    fs.find? (fun f => hasBinExt f &&
      (decide (normalize_path f = mainCandUnpadded champion skinId) ||
        decide (normalize_path f = mainCandPadded champion skinId)))

/-- C6 claim: main-document discovery checks exactly the two candidate
relative paths for direct existence, then falls back to scanning all
document-extension files against the same two candidates, returning the first
exact match and `none` otherwise. -/
theorem C6_find_main_skin_bin_spec (fs : List (List Char))
    (champion : List Char) (skinId : Nat) :
    find_main_skin_bin fs champion skinId =
      findMainSkinBinSpec fs champion skinId := by
  unfold find_main_skin_bin findMainSkinBinSpec skinBinCandidates
  by_cases h1 : mainCandUnpadded champion skinId ∈ fs <;>
    by_cases h2 : mainCandPadded champion skinId ∈ fs <;>
      simp [List.find?_cons, List.contains_cons, h1, h2]

/-- The document classifier's result type (`BinCategory` in
`core/bin/concat.rs`, consumed here); the classifier function itself is
external and is passed as a parameter wherever it is needed. -/
inductive BinCategory : Type where
  | championRoot : BinCategory
  | animation : BinCategory
  | linkedData : BinCategory
  | ignore : BinCategory
deriving DecidableEq

/-- Rust `Path::file_name()` (lossy): the component after the last `/`. -/
def fileNameOf (f : List Char) : List Char :=
  (f.reverse.takeWhile (fun c => !(c == '/'))).reverse

/-- `target_anim_name` in `cleanup_irrelevant_bins`:
`format!("skin{}.bin", target_skin_id)`. -/
def targetAnimName (skinId : Nat) : List Char :=
  "skin".toList ++ Nat.toDigits 10 skinId ++ ".bin".toList

/-- `target_anim_name_padded`: `format!("skin{:02}.bin", target_skin_id)`. -/
def targetAnimNamePadded (skinId : Nat) : List Char :=
  "skin".toList ++ pad2 skinId ++ ".bin".toList

/-- `root_bin_name`: `format!("{}.bin", champion_lower)`. -/
def rootBinName (champion : List Char) : List Char :=
  toLowerStr champion ++ ".bin".toList

/-- The per-file removal decision of `cleanup_irrelevant_bins`: skip files
whose lowercased filename contains the consolidation marker `__concat`,
otherwise decide by classifier category; a file classified `Animation` is
removed unless its lowercased filename equals one of the two canonical
zero-padding forms of the target skin id. -/
def shouldRemoveBin (classify : List Char → BinCategory)
    (champion : List Char) (targetSkinId : Nat) (f : List Char) : Bool :=
  let filename := toLowerStr (fileNameOf f)
  if containsSub filename ("__concat".toList) then false
  else
    match classify (normalize_path f) with
    | .championRoot => true
    | .animation =>
        !(filename == targetAnimName targetSkinId) &&
          !(filename == targetAnimNamePadded targetSkinId)
    | .linkedData => filename == rootBinName champion
    | .ignore => true

/-- `cleanup_irrelevant_bins` as the set of files it deletes: the
document-extension files of the walk for which the removal decision fires
(file removal modelled as succeeding). -/
def cleanup_irrelevant_bins (classify : List Char → BinCategory)
    (champion : List Char) (targetSkinId : Nat) (fs : List (List Char)) :
    List (List Char) :=
  fs.filter (fun f => hasBinExt f &&
    shouldRemoveBin classify champion targetSkinId f)

/-- C7 claim: within the cleanup pass, a document classified as a variant
animation (and not bearing the consolidation marker, which the pass skips
before classifying) is deleted exactly when its lowercased filename is neither
`skin{id}.bin` nor `skin{0-padded id}.bin`; and in the spec's scenario C —
target variant 1 with variant-animation documents `skin0.bin` and `skin1.bin`
on disk (classifier modelled from the spec as classifying them `Animation`) —
exactly `skin0.bin` is deleted. -/
theorem C7_variant_animation_cleanup :
    (∀ (classify : List Char → BinCategory) (champion : List Char)
      (targetSkinId : Nat) (f : List Char),
      classify (normalize_path f) = BinCategory.animation →
      containsSub (toLowerStr (fileNameOf f)) "__concat".toList = false →
      (shouldRemoveBin classify champion targetSkinId f = true ↔
        (toLowerStr (fileNameOf f) ≠ targetAnimName targetSkinId ∧
          toLowerStr (fileNameOf f) ≠ targetAnimNamePadded targetSkinId))) ∧
    cleanup_irrelevant_bins (fun _ => BinCategory.animation) "ahri".toList 1
        ["skin0.bin".toList, "skin1.bin".toList] =
      ["skin0.bin".toList] := by
  constructor
  · intro classify champion targetSkinId f hcat hcc
    simp only [shouldRemoveBin]
    rw [if_neg (by simpa using hcc), hcat]
    simp
  · decide

/-- C7 witness. -/
theorem C7_variant_animation_cleanup_witness :
    shouldRemoveBin (fun _ => BinCategory.animation) "ahri".toList 1
        "skin0.bin".toList = true ↔
      (toLowerStr (fileNameOf ("skin0.bin".toList)) ≠ targetAnimName 1 ∧
        toLowerStr (fileNameOf ("skin0.bin".toList)) ≠
          targetAnimNamePadded 1) :=
  C7_variant_animation_cleanup.1 (fun _ => BinCategory.animation)
    "ahri".toList 1 ("skin0.bin".toList) rfl (by decide)

/-- `RepathConfig` from `refather.rs`. -/
structure RepathConfig : Type where
  creator_name : List Char
  project_name : List Char
  champion : List Char
  target_skin_id : Nat
  combine_linked_bins : Bool
  cleanup_unused : Bool

/-- Lookup in the `path_mappings` table (`HashMap<String, String>`),
modelled as association-list lookup. -/
def lookupMapping (m : List (List Char × List Char)) (k : List Char) :
    Option (List Char) :=
  (m.find? (fun e => e.1 == k)).map (fun e => e.2)

/-- Step 0 of `repath_project`: call `find_main_skin_bin` only when the
configured champion is non-empty, else `None`. -/
def mainBinPath (fs : List (List Char)) (cfg : RepathConfig) :
    Option (List Char) :=
  if cfg.champion.isEmpty then none
  else find_main_skin_bin fs cfg.champion cfg.target_skin_id

/-- The dependency loop of `repath_project` (lines 93-124): normalize each
declared dependency, drop (and delete) the ones classified `Ignore`, resolve
the rest through the mapping table (identity fallback) and keep those that
exist on disk. -/
def resolveDeps (classify : List Char → BinCategory)
    (mappings : List (List Char × List Char)) (fs : List (List Char)) :
    List (List Char) → List (List Char)
  | [] => []
  | d :: ds =>
      let normalized := normalize_path d
      if classify normalized = BinCategory.ignore then
        resolveDeps classify mappings fs ds
      else
        let actual := (lookupMapping mappings normalized).getD normalized
        if fs.contains actual then
          actual :: resolveDeps classify mappings fs ds
        else resolveDeps classify mappings fs ds

/-- The fallback branch of `repath_project` (lines 128-154): scan every
document-extension file, deleting and dropping the ones classified `Ignore`
(classification there is on the raw relative path). -/
def fallbackScanBins (classify : List Char → BinCategory)
    (fs : List (List Char)) : List (List Char) :=
  fs.filter (fun f => hasBinExt f &&
    !(decide (classify f = BinCategory.ignore)))

/-- The construction of the working set `bin_files` in `repath_project`
before the consolidation step.  `deps` is the oracle for
`fs::read` + `read_bin` on the main document: `none` models a read or parse
failure (in which case only the main document is kept). -/
def buildBinFiles (classify : List Char → BinCategory)
    (deps : List Char → Option (List (List Char)))
    (mappings : List (List Char × List Char)) (fs : List (List Char))
    (cfg : RepathConfig) : List (List Char) :=
  match mainBinPath fs cfg with
  | some mainPath =>
      mainPath ::
        (match deps mainPath with
          | some ds => resolveDeps classify mappings fs ds
          | none => [])
  | none => fallbackScanBins classify fs

/-- C10 claim: with an empty champion, main-document discovery is skipped
(`find_main_skin_bin` is not consulted: the main path is `none` whatever the
filesystem holds) and the working set is unconditionally the full-tree-scan
fallback. -/
theorem C10_empty_champion_scans_all (classify : List Char → BinCategory)
    (deps : List Char → Option (List (List Char)))
    (mappings : List (List Char × List Char)) (fs : List (List Char))
    (cfg : RepathConfig) (h : cfg.champion = []) :
    mainBinPath fs cfg = none ∧
      buildBinFiles classify deps mappings fs cfg =
        fallbackScanBins classify fs := by
  have he : cfg.champion.isEmpty = true := by simp [h]
  refine ⟨by simp [mainBinPath, he], ?_⟩
  simp [buildBinFiles, mainBinPath, he]

/-- C10 witness: a conventionally-placed main document
(`data/characters/ahri/skins/skin0.bin`) is on disk, yet with an empty
champion the working set is the fallback scan. -/
theorem C10_empty_champion_scans_all_witness :
    mainBinPath ["data/characters/ahri/skins/skin0.bin".toList]
        ⟨"c".toList, "p".toList, [], 0, false, false⟩ = none ∧
      buildBinFiles (fun _ => BinCategory.linkedData) (fun _ => none) []
          ["data/characters/ahri/skins/skin0.bin".toList]
          ⟨"c".toList, "p".toList, [], 0, false, false⟩ =
        fallbackScanBins (fun _ => BinCategory.linkedData)
          ["data/characters/ahri/skins/skin0.bin".toList] :=
  C10_empty_champion_scans_all (fun _ => BinCategory.linkedData)
    (fun _ => none) [] ["data/characters/ahri/skins/skin0.bin".toList]
    ⟨"c".toList, "p".toList, [], 0, false, false⟩ rfl

/-- An object of a BIN document; the traversals iterate
`object.properties.values()`, so properties are kept as their values in
iteration order. -/
structure BinObject : Type where
  properties : List PValue

/-- A parsed BIN document (`ltk` side): keyed objects are kept as their
values in iteration order, plus the read-only dependency list. -/
structure BinDoc : Type where
  objects : List BinObject
  dependencies : List (List Char)

/-- The property loop of `repath_bin_file` over one object. -/
def repathProps (ex : List (List Char)) (pfx : List Char) :
    List PValue → List PValue × Nat
  | [] => ([], 0)
  | v :: vs =>
      let r := repath_value ex pfx v
      let rs := repathProps ex pfx vs
      (r.1 :: rs.1, r.2 + rs.2)

/-- The object loop of `repath_bin_file`. -/
def repathObjects (ex : List (List Char)) (pfx : List Char) :
    List BinObject → List BinObject × Nat
  | [] => ([], 0)
  | o :: os =>
      let r := repathProps ex pfx o.properties
      let rs := repathObjects ex pfx os
      (⟨r.1⟩ :: rs.1, r.2 + rs.2)

/-- In-memory rewrite of a whole document with its replacement count. -/
def repathBin (ex : List (List Char)) (pfx : List Char) (b : BinDoc) :
    BinDoc × Nat :=
  let r := repathObjects ex pfx b.objects
  (⟨r.1, b.dependencies⟩, r.2)

/-- `repath_bin_file` from `refather.rs` over the file's byte content:
parse (`read_bin`), rewrite, and only when the replacement count is positive
serialize (`write_bin`) and overwrite the content.  The external codec is the
parameter pair `parse`/`serializeBin`; the returned pair is the resulting
on-disk content of the file and the `Result<usize>` of the function. -/
def repath_bin_file {β ε : Type} (parse : β → Except ε BinDoc)
    (serializeBin : BinDoc → Except ε β) (ex : List (List Char))
    (pfx : List Char) (content : β) : β × Except ε Nat :=
  match parse content with
  | .error e => (content, .error e)
  | .ok bin =>
      let r := repathBin ex pfx bin
      if 0 < r.2 then
        match serializeBin r.1 with
        | .error e => (content, .error e)
        | .ok newData => (newData, .ok r.2)
      else (content, .ok r.2)

/-- C9 claim: rewriting one document is atomic — the on-disk content is left
untouched when parsing fails, when serialization of the mutated document
fails, or when no replacement happened; and whenever the content does change,
it is the serializer's output after a successful parse with a positive
replacement count. -/
theorem C9_repath_bin_file_atomic {β ε : Type} (parse : β → Except ε BinDoc)
    (serializeBin : BinDoc → Except ε β) (ex : List (List Char))
    (pfx : List Char) (content : β) :
    (∀ e, parse content = .error e →
      (repath_bin_file parse serializeBin ex pfx content).1 = content) ∧
    (∀ bin, parse content = .ok bin → (repathBin ex pfx bin).2 = 0 →
      (repath_bin_file parse serializeBin ex pfx content).1 = content) ∧
    (∀ bin e, parse content = .ok bin →
      serializeBin (repathBin ex pfx bin).1 = .error e →
      (repath_bin_file parse serializeBin ex pfx content).1 = content) ∧
    ((repath_bin_file parse serializeBin ex pfx content).1 ≠ content →
      ∃ bin, parse content = .ok bin ∧ 0 < (repathBin ex pfx bin).2 ∧
        serializeBin (repathBin ex pfx bin).1 =
          .ok (repath_bin_file parse serializeBin ex pfx content).1) := by
  refine ⟨?_, ?_, ?_, ?_⟩
  · intro e he
    simp [repath_bin_file, he]
  · intro bin hb hcnt
    simp [repath_bin_file, hb, hcnt]
  · intro bin e hb hs
    by_cases hcnt : 0 < (repathBin ex pfx bin).2
    · simp only [repath_bin_file, hb]
      rw [if_pos hcnt, hs]
    · simp [repath_bin_file, hb, hcnt]
  · intro hne
    cases hp : parse content with
    | error e => exact absurd (by simp [repath_bin_file, hp]) hne
    | ok bin =>
      refine ⟨bin, rfl, ?_, ?_⟩
      · by_contra hc
        have hz : (repathBin ex pfx bin).2 = 0 := by omega
        exact hne (by simp [repath_bin_file, hp, hz])
      · cases hcnt : decide (0 < (repathBin ex pfx bin).2) with
        | false =>
          have hz : (repathBin ex pfx bin).2 = 0 := by
            have := of_decide_eq_false hcnt
            omega
          exact absurd (by simp [repath_bin_file, hp, hz]) hne
        | true =>
          have hlt := of_decide_eq_true hcnt
          cases hs : serializeBin (repathBin ex pfx bin).1 with
          | error e =>
            refine absurd ?_ hne
            simp only [repath_bin_file, hp]
            rw [if_pos hlt, hs]
          | ok newData =>
            have : (repath_bin_file parse serializeBin ex pfx content).1 =
                newData := by
              simp only [repath_bin_file, hp]
              rw [if_pos hlt, hs]
            rw [this]

/-- C9 witness: a parse that yields a document with no objects gives
replacement count zero, so the content is untouched. -/
theorem C9_repath_bin_file_atomic_witness :
    (repath_bin_file (fun _ => Except.ok (⟨[], []⟩ : BinDoc))
        (fun _ => (Except.error 0 : Except Nat (List Char))) [] []
        "bytes".toList).1 = "bytes".toList :=
  (C9_repath_bin_file_atomic (fun _ => Except.ok (⟨[], []⟩ : BinDoc))
      (fun _ => (Except.error 0 : Except Nat (List Char))) [] []
      "bytes".toList).2.1 ⟨[], []⟩ rfl rfl

/-- The filesystem-effect oracle used by `relocate_assets`: existence test,
`fs::create_dir_all`, `fs::copy`, `fs::remove_file`; each fallible operation
reports its outcome as `Except`. -/
structure FsOps (ε : Type) : Type where
  pathExists : List Char → Bool
  createDirAll : List Char → Except ε Unit
  copyFile : List Char → List Char → Except ε Unit
  removeFile : List Char → Except ε Unit

/-- `Path::parent()` of a relative path: everything before the last `/`. -/
def parentOf (p : List Char) : List Char :=
  ((p.reverse.dropWhile (fun c => !(c == '/'))).drop 1).reverse

/-- The loop of `relocate_assets` from `refather.rs`: skip `.bin` paths,
create the destination's parent directory, and when the source exists copy it,
remove it and count it.  Every fallible call uses `?`, so the first failure
aborts the whole loop with that error. -/
def relocateLoop {ε : Type} (ops : FsOps ε) (pfx : List Char) :
    List (List Char) → Nat → Except ε Nat
  | [], acc => .ok acc
  | p :: rest, acc =>
      if (".bin".toList).isSuffixOf (toLowerStr p) then
        relocateLoop ops pfx rest acc
      else
        match ops.createDirAll (parentOf (apply_prefix_to_path p pfx)) with
        | .error e => .error e
        | .ok _ =>
            if ops.pathExists p then
              match ops.copyFile p (apply_prefix_to_path p pfx) with
              | .error e => .error e
              | .ok _ =>
                  match ops.removeFile p with
                  | .error e => .error e
                  | .ok _ => relocateLoop ops pfx rest (acc + 1)
            else relocateLoop ops pfx rest acc

/-- `relocate_assets`: iterate the existing paths (iteration order made
explicit as the list order) starting from a zero count. -/
def relocate_assets {ε : Type} (ops : FsOps ε) (existing : List (List Char))
    (pfx : List Char) : Except ε Nat :=
  relocateLoop ops pfx existing 0

/-- `RepathResult` from `refather.rs`. -/
structure RepathResult : Type where
  bins_processed : Nat
  paths_modified : Nat
  files_relocated : Nat
  bins_combined : Nat
  files_removed : Nat
  missing_paths : List (List Char)

/-- Step 5 of `repath_project`:
`result.files_relocated = relocate_assets(...)?` — the `?` propagates a
relocation error out of `repath_project`. -/
def repathRelocateStep {ε : Type} (r : RepathResult)
    (reloc : Except ε Nat) : Except ε RepathResult :=
  match reloc with
  | .error e => .error e
  | .ok n => .ok { r with files_relocated := n }

/-- An oracle on which copying any file fails; directories can be created and
removals succeed, and every source exists. -/
def opsCopyFail : FsOps (List Char) where
  pathExists := fun _ => true
  createDirAll := fun _ => .ok ()
  copyFile := fun _ _ => .error ("copyfail".toList)
  removeFile := fun _ => .ok ()

/-- C2 counterexample: a run in which copying the single asset
`assets/a.dds` fails does NOT continue — `relocate_assets` returns the error
and step 5 of `repath_project` propagates it, so no `RepathResult` is
returned. -/
theorem C2_counterexample :
    relocate_assets opsCopyFail ["assets/a.dds".toList] "P/Q".toList =
        .error ("copyfail".toList) ∧
      repathRelocateStep ⟨0, 0, 0, 0, 0, []⟩
          (relocate_assets opsCopyFail ["assets/a.dds".toList]
            "P/Q".toList) =
        (.error ("copyfail".toList) : Except (List Char) RepathResult) :=
  ⟨rfl, rfl⟩

/-- C2 amended: a filesystem failure for one asset during relocation is
fatal, not skipped: `relocate_assets` can return a count only if every
operation it attempted succeeded (so any create-dir, copy or remove failure
on an encountered asset yields `Err`), and step 5 of `repath_project`
propagates that error instead of producing a `RepathResult`. -/
theorem C2_relocate_failure_fatal {ε : Type} (ops : FsOps ε)
    (pfx : List Char) :
    (∀ (paths : List (List Char)) (acc n : Nat),
      relocateLoop ops pfx paths acc = .ok n →
      ∀ p ∈ paths, ".bin".toList.isSuffixOf (toLowerStr p) = false →
        ops.createDirAll (parentOf (apply_prefix_to_path p pfx)) = .ok () ∧
          (ops.pathExists p = true →
            ops.copyFile p (apply_prefix_to_path p pfx) = .ok () ∧
              ops.removeFile p = .ok ())) ∧
    (∀ (r : RepathResult) (e : ε),
      repathRelocateStep r (.error e) = (.error e : Except ε RepathResult)) := by
  constructor
  · intro paths
    induction paths with
    | nil => intro acc n _ p hp; simp at hp
    | cons q rest ih =>
      intro acc n hok p hp hbin
      rw [show (".bin".toList : List Char) = ['.', 'b', 'i', 'n'] from rfl]
        at hbin
      by_cases hq : ['.', 'b', 'i', 'n'] <:+ toLowerStr q
      · rw [show relocateLoop ops pfx (q :: rest) acc =
            relocateLoop ops pfx rest acc from by
          simp [relocateLoop, hq]] at hok
        rcases List.mem_cons.mp hp with rfl | hp2
        · exact absurd (List.isSuffixOf_iff_suffix.mpr hq)
            (by simp [hbin])
        · exact ih acc n hok p hp2 hbin
      · cases hc : ops.createDirAll (parentOf (apply_prefix_to_path q pfx))
          with
        | error e => simp [relocateLoop, hq, hc] at hok
        | ok u =>
          cases hex : ops.pathExists q with
          | false =>
            rw [show relocateLoop ops pfx (q :: rest) acc =
                relocateLoop ops pfx rest acc from by
              simp [relocateLoop, hq, hc, hex]] at hok
            rcases List.mem_cons.mp hp with rfl | hp2
            · exact ⟨by cases u; exact hc, fun hx => by
                simp [hex] at hx⟩
            · exact ih acc n hok p hp2 hbin
          | true =>
            cases hcp : ops.copyFile q (apply_prefix_to_path q pfx) with
            | error e => simp [relocateLoop, hq, hc, hex, hcp] at hok
            | ok u2 =>
              cases hrm : ops.removeFile q with
              | error e =>
                simp [relocateLoop, hq, hc, hex, hcp, hrm] at hok
              | ok u3 =>
                rw [show relocateLoop ops pfx (q :: rest) acc =
                    relocateLoop ops pfx rest (acc + 1) from by
                  simp [relocateLoop, hq, hc, hex, hcp, hrm]] at hok
                rcases List.mem_cons.mp hp with rfl | hp2
                · exact ⟨by cases u; exact hc,
                    fun _ => ⟨by cases u2; exact hcp, by cases u3; exact hrm⟩⟩
                · exact ih (acc + 1) n hok p hp2 hbin
  · intro r e
    rfl

/-- C2 amended witness. -/
theorem C2_relocate_failure_fatal_witness :
    (FsOps.mk (fun _ => true) (fun _ => Except.ok ())
        (fun _ _ => Except.ok ()) (fun _ => Except.ok ())
        : FsOps Nat).createDirAll
        (parentOf (apply_prefix_to_path ("assets/a.dds".toList)
          "P/Q".toList)) = .ok () ∧
      ((FsOps.mk (fun _ => true) (fun _ => Except.ok ())
          (fun _ _ => Except.ok ()) (fun _ => Except.ok ())
          : FsOps Nat).pathExists ("assets/a.dds".toList) = true →
        (FsOps.mk (fun _ => true) (fun _ => Except.ok ())
            (fun _ _ => Except.ok ()) (fun _ => Except.ok ())
            : FsOps Nat).copyFile ("assets/a.dds".toList)
            (apply_prefix_to_path ("assets/a.dds".toList) "P/Q".toList) =
          .ok () ∧
        (FsOps.mk (fun _ => true) (fun _ => Except.ok ())
            (fun _ _ => Except.ok ()) (fun _ => Except.ok ())
            : FsOps Nat).removeFile ("assets/a.dds".toList) = .ok ()) :=
  (C2_relocate_failure_fatal
      (FsOps.mk (fun _ => true) (fun _ => Except.ok ())
        (fun _ _ => Except.ok ()) (fun _ => Except.ok ()))
      "P/Q".toList).1
    ["assets/a.dds".toList] 0 1 rfl ("assets/a.dds".toList)
    (by simp) (by decide)
